import Mathlib

/-!
Shallow embedding of the Huffman codec in `src/huffman/util.py`
(`decode_byte`, `decompress`, `compress`, `read_tree`, `write_tree`) together
with models of its collaborators (`huffman.TreeLeaf`/`TreeBranch`,
`huffman.make_encoding_table`, `bitio.BitReader`/`BitWriter`), and theorems
settling the specification claims.

Modelling conventions:
* A Huffman tree is the inductive `HTree`; a leaf stores `Option Nat`
  (`some b` for a real byte, `none` for the end-of-stream marker, exactly as
  the Python leaves store an int or `None`).
* A bit stream is a `List Bool` (`false` = bit 0 = left, `true` = bit 1 =
  right, matching `bitio`'s bit order at the granularity the codec observes).
* Python exceptions that escape a function are `Except.error ()`; the value
  `None` returned by `decode_byte` is `Option.none`.
* The pickled tree prefix of a compressed artifact is modelled abstractly: an
  artifact is the pair `(tree, payload bits)`, since `pickle.dump`/`pickle.load`
  is an external self-delimiting collaborator that reconstructs the tree
  exactly and leaves the stream positioned at the first payload bit.
-/

namespace HuffmanUtil

/-- Modelled from the spec: the tree node type of the external `huffman`
module (`TreeLeaf` holding an optional byte value — `none` is the
end-of-stream marker — and `TreeBranch` holding exactly two children). -/
inductive HTree where
  | leaf (value : Option Nat)
  | branch (left right : HTree)
deriving DecidableEq, Repr

/-- `TreeBranch.getLeft`; on a `TreeLeaf` the attribute does not exist
(Python raises `AttributeError`), modelled as `none`. -/
def getLeft : HTree → Option HTree
  | HTree.leaf _ => none
  | HTree.branch l _ => some l

/-- `TreeBranch.getRight`; `none` models the `AttributeError` on a leaf. -/
def getRight : HTree → Option HTree
  | HTree.leaf _ => none
  | HTree.branch _ r => some r

/-- Whether the root node is an internal (`TreeBranch`) node. -/
def HTree.isBranch : HTree → Bool
  | HTree.leaf _ => false
  | HTree.branch _ _ => true

/-- `decode_byte(tree, bitreader)` from `src/huffman/util.py`.

The bit reader is the list of bits still unread.  Each loop iteration reads
one bit (an empty list raises `EOFError`, which the function catches and
turns into a returned `None`, i.e. `.ok (none, _)`), descends to the left
child on bit 0 / right child on bit 1 (descending from a leaf raises
`AttributeError`, i.e. `.error ()`), and returns the value of the node it
lands on as soon as that node is a leaf.  The returned pair carries the
bits left unread, modelling the reader's position after the call. -/
def decode_byte : HTree → List Bool → Except Unit (Option Nat × List Bool)
  | _, [] => Except.ok (none, [])
  | t, bit :: rest =>
    match (if bit then getRight t else getLeft t) with
    | none => Except.error ()
    | some (HTree.leaf v) => Except.ok (v, rest)
    | some (HTree.branch l r) => decode_byte (HTree.branch l r) rest

/-- Modelled from the spec: `huffman.make_encoding_table` (spec section 4.3).
Depth-first traversal threading the accumulated root path: recurse left with
`path ++ [false]`, right with `path ++ [true]`, and record `(value, path)`
at each leaf. -/
def tableAux : HTree → List Bool → List (Option Nat × List Bool)
  | HTree.leaf v, path => [(v, path)]
  | HTree.branch l r, path => tableAux l (path ++ [false]) ++ tableAux r (path ++ [true])

/-- Modelled from the spec: the encoding table derived from a tree, as an
association list keyed by leaf value (`none` is the end-of-stream marker).
`List.lookup` models the Python dict subscript; a failed lookup is the
dict's `KeyError`. -/
def make_encoding_table (t : HTree) : List (Option Nat × List Bool) :=
  tableAux t []

/-- One bounded step of the `decompress` while loop, with explicit fuel
(the Python loop is unbounded; `decompressLoop` below instantiates the fuel
and `decompressFuel_irrel` shows any sufficient fuel gives the same result,
so the loop terminates).  A decoded real byte `b` is written to the output
with `writer.writebits(b, 8)`, which emits the low 8 bits, i.e. `b % 256`;
a decoded `None` ends the loop normally; an escaping exception aborts. -/
def decompressFuel : Nat → HTree → List Bool → Except Unit (List Nat)
  | 0, _, _ => Except.error ()
  | fuel + 1, t, bits =>
    match decode_byte t bits with
    | Except.error _ => Except.error ()
    | Except.ok (none, _) => Except.ok []
    | Except.ok (some b, rest) =>
      (decompressFuel fuel t rest).map (fun out => b % 256 :: out)

/-- The decoding loop of `decompress`: repeatedly `decode_byte`, writing each
real byte, stopping on `None`.  Fuel `bits.length + 1` always suffices
because every successfully decoded byte consumes at least one bit. -/
def decompressLoop (t : HTree) (bits : List Bool) : Except Unit (List Nat) :=
  decompressFuel (bits.length + 1) t bits

/-- A compressed artifact: the pickled tree followed by the payload bits. -/
abbrev Artifact := HTree × List Bool

/-- `read_tree`: `pickle.load` reconstructs the pickled tree exactly and
advances the stream past it. -/
def read_tree (a : Artifact) : HTree := a.1

/-- `decompress(compressed, uncompressed)` from `src/huffman/util.py`:
read the tree with `read_tree`, then run the decoding loop on the remaining
bits; the result is the byte sequence written to `uncompressed`. -/
def decompress (a : Artifact) : Except Unit (List Nat) :=
  decompressLoop (read_tree a) a.2

/-- The while loop of `compress`, carrying the bit writer's accumulated bits
`w`: for each input byte look up its path (a missing key raises `KeyError`,
modelled as `none`) and append its bits; on input exhaustion append the
end-of-stream marker's path `table[None]` and stop. -/
def compressLoop (table : List (Option Nat × List Bool)) (w : List Bool) :
    List Nat → Option (List Bool)
  | [] =>
    match List.lookup none table with
    | none => none
    | some p => some (w ++ p)
  | b :: rest =>
    match List.lookup (some b) table with
    | none => none
    | some p => compressLoop table (w ++ p) rest

/-- `BitWriter.flush()`: pad the final partial byte with zero bits. -/
def flushBits (w : List Bool) : List Bool :=
  w ++ List.replicate ((8 - w.length % 8) % 8) false

/-- `compress(tree, uncompressed, compressed)` from `src/huffman/util.py`:
write the pickled tree, build the encoding table, run the encoding loop over
the input bytes, then flush.  An escaping `KeyError` is `.error ()`; on
success the artifact pairs the written tree with the flushed payload bits. -/
def compress (t : HTree) (s : List Nat) : Except Unit Artifact :=
  match compressLoop (make_encoding_table t) [] s with
  | none => Except.error ()
  | some w => Except.ok (t, flushBits w)

/-- The concatenation of the table paths of the bytes of `s`, in input
order; `none` when some byte has no table entry. -/
def encodeBody (table : List (Option Nat × List Bool)) : List Nat → Option (List Bool)
  | [] => some []
  | b :: rest =>
    match List.lookup (some b) table, encodeBody table rest with
    | some p, some body => some (p ++ body)
    | _, _ => none

/-- The concatenation, in input order, of the table paths of the bytes of
`s` (with `getD []` only ever applied to present keys in the theorems). -/
def emittedPaths (t : HTree) (s : List Nat) : List Bool :=
  (s.map fun b => (List.lookup (some b) (make_encoding_table t)).getD []).flatten

/-- The while loop of `decode_byte` with an explicit iteration budget:
`none` means the budget was exhausted with the loop still running.  Used to
state that the unbounded Python loop terminates. -/
def decodeByteFuel : Nat → HTree → List Bool →
    Option (Except Unit (Option Nat × List Bool))
  | 0, _, _ => none
  | fuel + 1, t, bits =>
    match bits with
    | [] => some (Except.ok (none, []))
    | bit :: rest =>
      match (if bit then getRight t else getLeft t) with
      | none => some (Except.error ())
      | some (HTree.leaf v) => some (Except.ok (v, rest))
      | some (HTree.branch l r) => decodeByteFuel fuel (HTree.branch l r) rest

/-- Modelled from the spec (section 4.1): the decoding algorithm as stated —
start at the root; read one bit (an exhausted source yields `None`); move to
the left child on `false` and the right child on `true`; if the node moved
to is a Leaf, return its value immediately, reading no further bits;
otherwise continue from that child. -/
inductive DecodeSpec : HTree → List Bool → Except Unit (Option Nat × List Bool) → Prop where
  | exhausted (t : HTree) : DecodeSpec t [] (Except.ok (none, []))
  | leafFound (l r : HTree) (bit : Bool) (bs : List Bool) (v : Option Nat)
      (hchild : (if bit then r else l) = HTree.leaf v) :
      DecodeSpec (HTree.branch l r) (bit :: bs) (Except.ok (v, bs))
  | descend (l r l' r' : HTree) (bit : Bool) (bs : List Bool)
      (out : Except Unit (Option Nat × List Bool))
      (hchild : (if bit then r else l) = HTree.branch l' r')
      (hrec : DecodeSpec (HTree.branch l' r') bs out) :
      DecodeSpec (HTree.branch l r) (bit :: bs) out

/-- A small concrete tree used by the witnesses: byte 65 at path `00`,
byte 66 at path `01`, the end-of-stream marker at path `1`. -/
def sampleTree : HTree :=
  HTree.branch (HTree.branch (HTree.leaf (some 65)) (HTree.leaf (some 66)))
    (HTree.leaf none)

/-! ### Helper lemmas -/

/-- A successful association-list lookup returns an entry of the list. -/
theorem lookup_mem {α β : Type} [BEq α] [LawfulBEq α] (a : α) (b : β) :
    ∀ l : List (α × β), List.lookup a l = some b → (a, b) ∈ l := by
  intro l
  induction l with
  | nil => intro h; simp at h
  | cons hd tl ih =>
    intro h
    obtain ⟨k, c⟩ := hd
    rw [List.lookup_cons] at h
    cases hbeq : a == k with
    | true =>
      rw [hbeq] at h
      simp only at h
      cases h
      have ha : a = k := eq_of_beq hbeq
      subst ha
      exact List.mem_cons_self _ _
    | false =>
      rw [hbeq] at h
      simp only at h
      exact List.mem_cons_of_mem _ (ih h)

/-- Shifting the accumulated path of the table traversal prefixes every
recorded path. -/
theorem tableAux_shift (t : HTree) :
    ∀ pre : List Bool,
      tableAux t pre = (tableAux t []).map (fun e => (e.1, pre ++ e.2)) := by
  induction t with
  | leaf v => intro pre; simp [tableAux]
  | branch l r ihl ihr =>
    intro pre
    rw [tableAux, tableAux, ihl (pre ++ [false]), ihr (pre ++ [true]),
      ihl ([] ++ [false]), ihr ([] ++ [true])]
    simp [List.map_map, List.map_append, Function.comp_def, List.append_assoc]

/-- Every table entry of a branch-rooted tree starts a correct decode:
following the recorded path from the root lands on the recording leaf and
returns its value with the remaining bits untouched; for a leaf root the
recorded path is empty. -/
theorem decode_byte_table_entry (t : HTree) :
    ∀ (v : Option Nat) (p rest : List Bool),
      (v, p) ∈ make_encoding_table t →
      (t = HTree.leaf v ∧ p = []) ∨
        decode_byte t (p ++ rest) = Except.ok (v, rest) := by
  induction t with
  | leaf v₀ =>
    intro v p rest hmem
    simp [make_encoding_table, tableAux] at hmem
    exact Or.inl ⟨by rw [hmem.1], hmem.2⟩
  | branch l r ihl ihr =>
    intro v p rest hmem
    rw [make_encoding_table, tableAux, tableAux_shift l, tableAux_shift r,
      List.mem_append] at hmem
    refine Or.inr ?_
    rcases hmem with hmem | hmem
    · obtain ⟨⟨v', p'⟩, hmem', heq⟩ := List.mem_map.1 hmem
      simp only [List.nil_append, List.singleton_append, Prod.mk.injEq] at heq
      obtain ⟨hv, hp⟩ := heq
      subst hv
      subst hp
      cases l with
      | leaf w =>
        have hw : (v', p') ∈ make_encoding_table (HTree.leaf w) := hmem'
        simp only [make_encoding_table, tableAux, List.mem_singleton,
          Prod.mk.injEq] at hw
        obtain ⟨hv', hp'⟩ := hw
        subst hv'
        subst hp'
        rfl
      | branch ll lr =>
        rcases ihl v' p' rest hmem' with ⟨hlw, _⟩ | hdec
        · exact absurd hlw (by simp)
        · show decode_byte (HTree.branch ll lr) (p' ++ rest) = Except.ok (v', rest)
          exact hdec
    · obtain ⟨⟨v', p'⟩, hmem', heq⟩ := List.mem_map.1 hmem
      simp only [List.nil_append, List.singleton_append, Prod.mk.injEq] at heq
      obtain ⟨hv, hp⟩ := heq
      subst hv
      subst hp
      cases r with
      | leaf w =>
        have hw : (v', p') ∈ make_encoding_table (HTree.leaf w) := hmem'
        simp only [make_encoding_table, tableAux, List.mem_singleton,
          Prod.mk.injEq] at hw
        obtain ⟨hv', hp'⟩ := hw
        subst hv'
        subst hp'
        rfl
      | branch rl rr =>
        rcases ihr v' p' rest hmem' with ⟨hrw, _⟩ | hdec
        · exact absurd hrw (by simp)
        · show decode_byte (HTree.branch rl rr) (p' ++ rest) = Except.ok (v', rest)
          exact hdec

/-- Looking a value up in the table of a branch-rooted tree and following
the resulting path decodes back to that value. -/
theorem decode_byte_lookup (t : HTree) (v : Option Nat) (p rest : List Bool)
    (hbr : t.isBranch = true)
    (hl : List.lookup v (make_encoding_table t) = some p) :
    decode_byte t (p ++ rest) = Except.ok (v, rest) := by
  have hmem := lookup_mem v p _ hl
  rcases decode_byte_table_entry t v p rest hmem with ⟨ht, _⟩ | hdec
  · subst ht; simp [HTree.isBranch] at hbr
  · exact hdec

/-- A successfully decoded real byte consumes at least one bit. -/
theorem decode_byte_consume :
    ∀ (bits : List Bool) (t : HTree) (b : Nat) (rest : List Bool),
      decode_byte t bits = Except.ok (some b, rest) → rest.length < bits.length := by
  intro bits
  induction bits with
  | nil =>
    intro t b rest h
    rw [decode_byte] at h
    simp at h
  | cons bit bs ih =>
    intro t b rest h
    rw [decode_byte] at h
    cases hc : (if bit then getRight t else getLeft t) with
    | none => rw [hc] at h; simp at h
    | some t' =>
      rw [hc] at h
      cases t' with
      | leaf v =>
        simp only [Except.ok.injEq, Prod.mk.injEq] at h
        obtain ⟨-, hrest⟩ := h
        subst hrest
        simp
      | branch l r =>
        simp only at h
        have := ih (HTree.branch l r) b rest h
        simp only [List.length_cons]
        omega

/-- The `decompress` loop's result does not depend on the fuel, as long as
the fuel exceeds the number of unread bits: the Python while loop
terminates. -/
theorem decompressFuel_irrel :
    ∀ (n : Nat) (t : HTree) (bits : List Bool) (m : Nat),
      bits.length < n → bits.length < m →
      decompressFuel n t bits = decompressFuel m t bits := by
  intro n
  induction n with
  | zero => intro t bits m hn hm; exact absurd hn (Nat.not_lt_zero _)
  | succ n ih =>
    intro t bits m hn hm
    cases m with
    | zero => exact absurd hm (Nat.not_lt_zero _)
    | succ m =>
      cases hd : decode_byte t bits with
      | error e => simp only [decompressFuel, hd]
      | ok pr =>
        obtain ⟨o, rest⟩ := pr
        cases o with
        | none => simp only [decompressFuel, hd]
        | some b =>
          have hlt := decode_byte_consume bits t b rest hd
          simp only [decompressFuel, hd]
          rw [ih t rest m (by omega) (by omega)]

/-- Unfolding `decompressLoop` when `decode_byte` raises. -/
theorem decompressLoop_error (t : HTree) (bits : List Bool)
    (h : decode_byte t bits = Except.error ()) :
    decompressLoop t bits = Except.error () := by
  simp only [decompressLoop, decompressFuel, h]

/-- Unfolding `decompressLoop` when `decode_byte` returns `None`: the loop
ends normally with no further output. -/
theorem decompressLoop_none (t : HTree) (bits r : List Bool)
    (h : decode_byte t bits = Except.ok (none, r)) :
    decompressLoop t bits = Except.ok [] := by
  simp only [decompressLoop, decompressFuel, h]

/-- Unfolding `decompressLoop` when `decode_byte` returns a real byte: it is
written (low 8 bits) and the loop continues on the remaining bits. -/
theorem decompressLoop_some (t : HTree) (bits rest : List Bool) (b : Nat)
    (h : decode_byte t bits = Except.ok (some b, rest)) :
    decompressLoop t bits =
      (decompressLoop t rest).map (fun out => b % 256 :: out) := by
  have h1 : decompressLoop t bits =
      (decompressFuel bits.length t rest).map (fun out => b % 256 :: out) := by
    simp only [decompressLoop, decompressFuel, h]
  rw [h1]
  simp only [decompressLoop]
  rw [decompressFuel_irrel bits.length t rest (rest.length + 1)
    (decode_byte_consume bits t b rest h) (Nat.lt_succ_self _)]

/-- The encoding loop appends the concatenated input paths and then the
end-of-stream path to whatever the writer already holds. -/
theorem compressLoop_eq (table : List (Option Nat × List Bool)) :
    ∀ (s : List Nat) (w : List Bool),
      compressLoop table w s =
        match encodeBody table s, List.lookup none table with
        | some body, some eof => some (w ++ body ++ eof)
        | _, _ => none := by
  intro s
  induction s with
  | nil =>
    intro w
    rw [compressLoop, encodeBody]
    cases List.lookup none table <;> simp
  | cons b rest ih =>
    intro w
    rw [compressLoop, encodeBody]
    cases hb : List.lookup (some b) table with
    | none => simp
    | some p =>
      simp only
      rw [ih (w ++ p)]
      cases encodeBody table rest with
      | none => simp
      | some body =>
        cases List.lookup none table <;> simp [List.append_assoc]

/-- A byte with no table entry makes the whole body encoding fail. -/
theorem encodeBody_missing (table : List (Option Nat × List Bool)) :
    ∀ (s : List Nat) (b : Nat), b ∈ s →
      List.lookup (some b) table = none → encodeBody table s = none := by
  intro s
  induction s with
  | nil => intro b h; intro _; simp at h
  | cons c rest ih =>
    intro b hmem hnone
    rw [encodeBody]
    rcases List.mem_cons.1 hmem with rfl | hmem'
    · rw [hnone]
    · rw [ih b hmem' hnone]
      cases List.lookup (some c) table <;> rfl

/-- When every input byte has a table entry, the encoded body is the
concatenation, in input order, of the bytes' paths. -/
theorem encodeBody_covered (table : List (Option Nat × List Bool)) :
    ∀ s : List Nat,
      (∀ b ∈ s, (List.lookup (some b) table).isSome) →
      encodeBody table s =
        some ((s.map fun b => (List.lookup (some b) table).getD []).flatten) := by
  intro s
  induction s with
  | nil => intro h; simp [encodeBody]
  | cons b rest ih =>
    intro h
    rw [encodeBody, ih (fun c hc => h c (List.mem_cons_of_mem _ hc))]
    cases hb : List.lookup (some b) table with
    | none =>
      have := h b (List.mem_cons_self _ _)
      rw [hb] at this
      simp at this
    | some p => simp [hb]

/-- Decoding the concatenation of encoded bodies: the loop recovers exactly
the encoded byte sequence and stops at the end-of-stream path, ignoring
whatever trails it. -/
theorem decompressLoop_encoded (t : HTree) (hbr : t.isBranch = true)
    (eof : List Bool)
    (heof : List.lookup none (make_encoding_table t) = some eof) :
    ∀ (s : List Nat) (body tail : List Bool),
      encodeBody (make_encoding_table t) s = some body →
      (∀ b ∈ s, b < 256) →
      decompressLoop t (body ++ eof ++ tail) = Except.ok s := by
  intro s
  induction s with
  | nil =>
    intro body tail hbody hlt
    rw [encodeBody] at hbody
    injection hbody with hbody
    subst hbody
    have hdec := decode_byte_lookup t none eof tail hbr heof
    simpa using decompressLoop_none t (eof ++ tail) tail hdec
  | cons b rest ih =>
    intro body tail hbody hlt
    rw [encodeBody] at hbody
    cases hb : List.lookup (some b) (make_encoding_table t) with
    | none => rw [hb] at hbody; simp at hbody
    | some p =>
      rw [hb] at hbody
      cases hrest : encodeBody (make_encoding_table t) rest with
      | none => rw [hrest] at hbody; simp at hbody
      | some body' =>
        rw [hrest] at hbody
        simp only at hbody
        injection hbody with hbody
        subst hbody
        have hdec := decode_byte_lookup t (some b) p (body' ++ (eof ++ tail)) hbr hb
        have hbits : (p ++ body') ++ eof ++ tail = p ++ (body' ++ (eof ++ tail)) := by
          simp [List.append_assoc]
        have hstep := decompressLoop_some t ((p ++ body') ++ eof ++ tail)
          (body' ++ (eof ++ tail)) b (by rw [hbits]; exact hdec)
        rw [hstep]
        have hloop : decompressLoop t (body' ++ (eof ++ tail)) = Except.ok rest := by
          have := ih body' tail hrest (fun c hc => hlt c (List.mem_cons_of_mem _ hc))
          simpa [List.append_assoc] using this
        rw [hloop]
        have hb256 : b % 256 = b :=
          Nat.mod_eq_of_lt (hlt b (List.mem_cons_self _ _))
        simp [Except.map, hb256]

/-- Compression followed by decompression on a branch-rooted tree: the
artifact has the claimed shape and decodes back to the input. -/
theorem compress_decompress (t : HTree) (hbr : t.isBranch = true) (s : List Nat)
    (hbyte : ∀ b ∈ s, b < 256) (body eof : List Bool)
    (hbody : encodeBody (make_encoding_table t) s = some body)
    (heof : List.lookup none (make_encoding_table t) = some eof) :
    compress t s = Except.ok (t, flushBits (body ++ eof)) ∧
      decompress (t, flushBits (body ++ eof)) = Except.ok s := by
  constructor
  · unfold compress
    rw [compressLoop_eq, hbody, heof]
    simp only [List.nil_append]
  · show decompressLoop t (flushBits (body ++ eof)) = Except.ok s
    exact decompressLoop_encoded t hbr eof heof s body _ hbody hbyte

/-! ### Claim theorems -/

/-- C1: for every byte sequence `s` (including the empty one) and every
tree whose encoding table covers every byte of `s` and the end-of-stream
marker, `compress` succeeds and `decompress` of the produced artifact
returns exactly `s` — decoding exactly `s.length` real bytes, stopping at
the sentinel. -/
theorem claim_C1_roundtrip (t : HTree) (s : List Nat)
    (hbyte : ∀ b ∈ s, b < 256)
    (hcover : ∀ b ∈ s, (List.lookup (some b) (make_encoding_table t)).isSome)
    (heof : (List.lookup none (make_encoding_table t)).isSome) :
    ∃ a : Artifact, compress t s = Except.ok a ∧ decompress a = Except.ok s ∧
      (decompress a).map List.length = Except.ok s.length := by
  obtain ⟨eof, heof'⟩ := Option.isSome_iff_exists.1 heof
  cases t with
  | leaf v =>
    rw [make_encoding_table, tableAux, List.lookup_cons] at heof'
    cases hbeq : ((none : Option Nat) == v) with
    | false => rw [hbeq] at heof'; simp at heof'
    | true =>
      have hv : (none : Option Nat) = v := eq_of_beq hbeq
      subst hv
      cases s with
      | cons b rest =>
        have hc := hcover b (List.mem_cons_self _ _)
        rw [make_encoding_table, tableAux, List.lookup_cons] at hc
        simp at hc
      | nil => exact ⟨(HTree.leaf none, []), rfl, rfl, rfl⟩
  | branch l r =>
    have hbody := encodeBody_covered (make_encoding_table (HTree.branch l r)) s hcover
    obtain ⟨hc, hd⟩ := compress_decompress (HTree.branch l r) rfl s hbyte _ eof hbody heof'
    exact ⟨_, hc, hd, by rw [hd]; rfl⟩

/-- C1 witness: a concrete round trip through `sampleTree`. -/
theorem claim_C1_roundtrip_witness :
    ∃ a : Artifact, compress sampleTree [65, 66] = Except.ok a ∧
      decompress a = Except.ok [65, 66] ∧
      (decompress a).map List.length = Except.ok 2 :=
  claim_C1_roundtrip sampleTree [65, 66] (by decide) (by decide) (by decide)

/-- C3: the artifact produced by `compress` is exactly the (pickled) tree,
followed by the concatenated bit paths of the input bytes in order, the
end-of-stream path once, and zero pad bits up to a byte boundary; the
payload bit length is the sum of the emitted path lengths rounded up to the
next multiple of 8, and every trailing pad bit is zero (`replicate pad
false`). -/
theorem claim_C3_stream_contract (t : HTree) (s : List Nat)
    (hcover : ∀ b ∈ s, (List.lookup (some b) (make_encoding_table t)).isSome)
    (eof : List Bool)
    (heof : List.lookup none (make_encoding_table t) = some eof) :
    ∃ pad : Nat, pad < 8 ∧
      compress t s =
        Except.ok (t, emittedPaths t s ++ eof ++ List.replicate pad false) ∧
      (emittedPaths t s ++ eof ++ List.replicate pad false).length =
        8 * (((emittedPaths t s).length + eof.length + 7) / 8) := by
  refine ⟨(8 - (emittedPaths t s ++ eof).length % 8) % 8, ?_, ?_, ?_⟩
  · exact Nat.mod_lt _ (by omega)
  · unfold compress
    rw [compressLoop_eq, encodeBody_covered _ s hcover, heof]
    simp only [List.nil_append]
    rw [flushBits]
    rfl
  · simp only [List.length_append, List.length_replicate]
    omega

/-- C3 witness: the concrete artifact for input `[65, 66]` through
`sampleTree`: paths `00`, `01`, then the end-of-stream path `1`, then three
zero pad bits. -/
theorem claim_C3_stream_contract_witness :
    ∃ pad : Nat, pad < 8 ∧
      compress sampleTree [65, 66] =
        Except.ok (sampleTree,
          emittedPaths sampleTree [65, 66] ++ [true] ++ List.replicate pad false) ∧
      (emittedPaths sampleTree [65, 66] ++ [true] ++ List.replicate pad false).length =
        8 * (((emittedPaths sampleTree [65, 66]).length + [true].length + 7) / 8) :=
  claim_C3_stream_contract sampleTree [65, 66] (by decide) [true] (by decide)

/-- C2: evaluation of the code at the failing inputs.  Streams physically
exhausted before the sentinel leaf is decoded make `decompress` return
normally (`Except.ok`) instead of surfacing a malformed-stream error: the
payload of `compress sampleTree [65, 66]` truncated immediately before the
end-of-stream path bits decodes to a normal `[65, 66]`, and a payload
truncated mid-path decodes to a normal, silently short `[]`. -/
theorem claim_C2_truncated_stream_returns_normally :
    decompress (sampleTree, [false, false, false, true]) = Except.ok [65, 66] ∧
    decompress (sampleTree, [false]) = Except.ok [] :=
  ⟨rfl, rfl⟩

/-- C4: `decode_byte` on an internal-rooted tree implements the specified
traversal (`DecodeSpec`): start at the root, read one bit per step, move to
the left child on 0 and the right child on 1, return the value of the first
Leaf landed on immediately — leaving the remaining bits unread — and return
the no-value signal when the source is exhausted before a leaf is
reached. -/
theorem claim_C4_traversal (t : HTree) (bits : List Bool)
    (hbr : t.isBranch = true) :
    DecodeSpec t bits (decode_byte t bits) := by
  induction bits generalizing t with
  | nil => exact DecodeSpec.exhausted t
  | cons bit bs ih =>
    cases t with
    | leaf v => simp [HTree.isBranch] at hbr
    | branch l r =>
      cases bit with
      | false =>
        cases l with
        | leaf v => exact DecodeSpec.leafFound _ _ false bs v rfl
        | branch l' r' =>
          exact DecodeSpec.descend _ _ l' r' false bs _ rfl
            (ih (HTree.branch l' r') rfl)
      | true =>
        cases r with
        | leaf v => exact DecodeSpec.leafFound _ _ true bs v rfl
        | branch l' r' =>
          exact DecodeSpec.descend _ _ l' r' true bs _ rfl
            (ih (HTree.branch l' r') rfl)

/-- C4 witness: the traversal relation holds for a concrete decode. -/
theorem claim_C4_traversal_witness :
    DecodeSpec sampleTree [false, true] (decode_byte sampleTree [false, true]) :=
  claim_C4_traversal sampleTree [false, true] rfl

/-- C5 counterexample: on the single-Leaf tree holding byte 65,
`decode_byte` does not return the leaf value with zero bits read: on an
exhausted source it returns the no-value signal `none` (not 65), and with a
bit available it consumes it and fails attempting to descend below the
leaf. -/
theorem claim_C5_counterexample :
    decode_byte (HTree.leaf (some 65)) [] = Except.ok (none, []) ∧
    decode_byte (HTree.leaf (some 65)) [] ≠ Except.ok (some 65, []) ∧
    decode_byte (HTree.leaf (some 65)) [false] = Except.error () := by
  refine ⟨rfl, ?_, rfl⟩
  intro h
  have h1 : (Except.ok ((none : Option Nat), ([] : List Bool))
      : Except Unit (Option Nat × List Bool)) = Except.ok (some 65, []) := h
  simp at h1

/-- C5 (amended): for a tree whose root is a single Leaf, `decode_byte`
never returns the leaf's value: it first tries to read a bit — if the
source is exhausted it returns the no-value signal `none`, and otherwise it
consumes the bit and raises (`AttributeError`) trying to descend below the
leaf. -/
theorem claim_C5_amended (v : Option Nat) :
    decode_byte (HTree.leaf v) [] = Except.ok (none, []) ∧
    ∀ (bit : Bool) (bs : List Bool),
      decode_byte (HTree.leaf v) (bit :: bs) = Except.error () := by
  refine ⟨rfl, ?_⟩
  intro bit bs
  cases bit <;> rfl

/-- C6: a byte of the input with no entry in the encoding table built from
the supplied tree makes `compress` raise (the `KeyError` is not caught —
only `EOFError` is — so it propagates to the caller and `compress` does not
return normally). -/
theorem claim_C6_unknown_symbol (t : HTree) (s : List Nat) (b : Nat)
    (hmem : b ∈ s)
    (hmiss : List.lookup (some b) (make_encoding_table t) = none) :
    compress t s = Except.error () := by
  unfold compress
  rw [compressLoop_eq, encodeBody_missing _ s b hmem hmiss]

/-- C6 witness: byte 9 has no entry in `sampleTree`'s table, so compressing
`[9]` errors. -/
theorem claim_C6_unknown_symbol_witness :
    compress sampleTree [9] = Except.error () :=
  claim_C6_unknown_symbol sampleTree [9] 9 (by decide) (by decide)

/-- C7: `decode_byte` terminates on every tree and bit source: the
while loop, run with any iteration budget larger than the number of
available bits, finishes with the function's result (it never loops
indefinitely), and on an internal-rooted (well-formed) tree every call
returns — either a decoded value or the exhaustion signal, never an
error. -/
theorem claim_C7_termination (t : HTree) (bits : List Bool) :
    (∀ fuel : Nat, bits.length < fuel →
        decodeByteFuel fuel t bits = some (decode_byte t bits)) ∧
    (t.isBranch = true →
        ∃ (o : Option Nat) (rest : List Bool),
          decode_byte t bits = Except.ok (o, rest)) := by
  constructor
  · induction bits generalizing t with
    | nil =>
      intro fuel hf
      cases fuel with
      | zero => exact absurd hf (by simp)
      | succ n => rfl
    | cons bit bs ih =>
      intro fuel hf
      cases fuel with
      | zero => exact absurd hf (by omega)
      | succ n =>
        rw [decodeByteFuel, decode_byte]
        cases hc : (if bit then getRight t else getLeft t) with
        | none => rfl
        | some t' =>
          cases t' with
          | leaf v => rfl
          | branch l r =>
            exact ih (HTree.branch l r) n
              (by simp only [List.length_cons] at hf; omega)
  · induction bits generalizing t with
    | nil => intro hbr; exact ⟨none, [], rfl⟩
    | cons bit bs ih =>
      intro hbr
      cases t with
      | leaf v => simp [HTree.isBranch] at hbr
      | branch l r =>
        cases bit with
        | false =>
          cases l with
          | leaf v => exact ⟨v, bs, rfl⟩
          | branch l' r' =>
            obtain ⟨o, rest, h⟩ := ih (HTree.branch l' r') rfl
            exact ⟨o, rest, h⟩
        | true =>
          cases r with
          | leaf v => exact ⟨v, bs, rfl⟩
          | branch l' r' =>
            obtain ⟨o, rest, h⟩ := ih (HTree.branch l' r') rfl
            exact ⟨o, rest, h⟩

/-- C7 witness: concrete termination of the fuelled loop and a concrete
returned result. -/
theorem claim_C7_termination_witness :
    decodeByteFuel 3 sampleTree [false, false] =
      some (decode_byte sampleTree [false, false]) ∧
    ∃ (o : Option Nat) (rest : List Bool),
      decode_byte sampleTree [false, false] = Except.ok (o, rest) :=
  ⟨(claim_C7_termination sampleTree [false, false]).1 3 (by decide),
   (claim_C7_termination sampleTree [false, false]).2 rfl⟩

/-- C8: `decode_byte` collapses physical end of input and the logical
end-of-stream symbol into the same return signal: an exhausted bit source
returns `none`, and following the sentinel leaf's path also returns `none`
— the caller sees the identical value in both cases and cannot tell them
apart from the return value alone. -/
theorem claim_C8_collapsed_signals (t : HTree) (p rest : List Bool)
    (hbr : t.isBranch = true)
    (hsent : List.lookup none (make_encoding_table t) = some p) :
    decode_byte t [] = Except.ok (none, []) ∧
    decode_byte t (p ++ rest) = Except.ok (none, rest) :=
  ⟨rfl, decode_byte_lookup t none p rest hbr hsent⟩

/-- C8 witness: on `sampleTree` both exhaustion and the sentinel path
`[true]` return the same `none` signal. -/
theorem claim_C8_collapsed_signals_witness :
    decode_byte sampleTree [] = Except.ok (none, []) ∧
    decode_byte sampleTree ([true] ++ []) = Except.ok (none, []) :=
  claim_C8_collapsed_signals sampleTree [true] [] rfl rfl

/-- C10: the end-of-stream sentinel is the value `none` at every layer: the
sentinel leaf stores `none`, the encoding table keys its path under `none`
(hypothesis `hsent`), and the `decompress` loop terminates exactly on a
decoded `none` — immediately, emitting nothing — while every decoded real
byte `some b` keeps the loop running and is emitted; a real symbol can
never equal the sentinel, real bytes being `some _` by type. -/
theorem claim_C10_sentinel_none (t : HTree) (p rest bits r : List Bool) (b : Nat)
    (hbr : t.isBranch = true)
    (hsent : List.lookup none (make_encoding_table t) = some p)
    (hdec : decode_byte t bits = Except.ok (some b, r)) :
    decompressLoop t (p ++ rest) = Except.ok [] ∧
    decompressLoop t bits =
      (decompressLoop t r).map (fun out => b % 256 :: out) :=
  ⟨decompressLoop_none t (p ++ rest) rest (decode_byte_lookup t none p rest hbr hsent),
   decompressLoop_some t bits r b hdec⟩

/-- C10 witness: concrete sentinel stop and concrete real-byte
continuation on `sampleTree`. -/
theorem claim_C10_sentinel_none_witness :
    decompressLoop sampleTree ([true] ++ []) = Except.ok [] ∧
    decompressLoop sampleTree [false, false] =
      (decompressLoop sampleTree []).map (fun out => 65 % 256 :: out) :=
  claim_C10_sentinel_none sampleTree [true] [] [false, false] [] 65 rfl rfl rfl

end HuffmanUtil
